import Mathlib

/-!
Verification development for the resize library (src/lib.rs): a separable
2D image resampler.  The floating-point arithmetic of the source (f32) is
modelled by exact rational arithmetic over the rationals; usize values and the
as-usize casts of the source are modelled by naturals together with an
explicit wrap-around cast modulo 2 to the 64.

The pixel-format module (px.rs) is not part of the sources available here;
its capability set is modelled from the specification (section 4.3) as the
PixelModel structure and the specFormat family below.
-/

namespace Resize

/-- Model of the as-usize cast of a 64-bit machine integer: wrap modulo 2^64. -/
def usizeCast (x : ℤ) : ℕ := (x % (2 ^ 64 : ℤ)).toNat

/-- Resizer::clamp from the source: if input is above max take max, below min take min. -/
def clamp (input lo hi : ℤ) : ℤ :=
  if input > hi then hi else if input < lo then lo else input

/-- Resampling filter: a kernel function together with its support radius
(struct Filter of the source, with the boxed closure modelled as a function). -/
structure Filter where
  kernel : ℚ → ℚ
  support : ℚ

/-- point_kernel from the source: constant 1. -/
def point_kernel (_ : ℚ) : ℚ := 1

/-- triangle_kernel from the source: max(1 - abs x, 0). -/
def triangle_kernel (x : ℚ) : ℚ := max (1 - |x|) 0

/-- cubic_bc from the source: the B,C-parametrised piecewise cubic. -/
def cubic_bc (b c x : ℚ) : ℚ :=
  let a := |x|
  let k :=
    if a < 1 then
      (12 - 9 * b - 6 * c) * a ^ 3 + (-18 + 12 * b + 6 * c) * a ^ 2 + (6 - 2 * b)
    else if a < 2 then
      (-b - 6 * c) * a ^ 3 + (6 * b + 30 * c) * a ^ 2 + (-12 * b - 48 * c) * a +
        (8 * b + 24 * c)
    else 0
  k / 6

/-- The Point filter (Type::Point): point_kernel with support 0. -/
def pointFilter : Filter := ⟨point_kernel, 0⟩

/-- The Triangle filter (Type::Triangle): triangle_kernel with support 1. -/
def triangleFilter : Filter := ⟨triangle_kernel, 1⟩

/-- The Catmull-Rom filter (Type::Catrom): cubic with B = 0, C = 1/2, support 2. -/
def catromFilter : Filter := ⟨fun x => cubic_bc 0 (1/2) x, 2⟩

/-- The Mitchell filter (Type::Mitchell): cubic with B = C = 1/3, support 2. -/
def mitchellFilter : Filter := ⟨fun x => cubic_bc (1/3) (1/3) x, 2⟩

/-- One weight window (struct CoeffsLine of the source): a start index into the
source axis and the normalized weights. -/
structure CoeffsLine where
  start : ℕ
  coeffs : List ℚ
deriving DecidableEq

/-- ratio = s1 / s2 computed in calc_coeffs (rational model of the f32 division;
division by zero yields 0 in this model, and such values are only ever produced
for windows that are never materialised). -/
def ratioOf (s1 s2 : ℕ) : ℚ := (s1 : ℚ) / (s2 : ℚ)

/-- filter_scale = max(ratio, 1) from calc_coeffs. -/
def filterScale (s1 s2 : ℕ) : ℚ := max (ratioOf s1 s2) 1

/-- filter_radius = ceil(support * filter_scale) from calc_coeffs, an integer. -/
def filterRadius (f : Filter) (s1 s2 : ℕ) : ℤ := ⌈f.support * filterScale s1 s2⌉

/-- x1 = (x2 + 0.5) * ratio - 0.5 from calc_coeffs: the sampling center of
destination coordinate x2 in source coordinates. -/
def sampleCenter (s1 s2 x2 : ℕ) : ℚ := ((x2 : ℚ) + 1/2) * ratioOf s1 s2 - 1/2

/-- The clamped window start as an isize, before the as-usize cast:
clamp(ceil(x1 - filter_radius), 0, s1 - 1). -/
def startZ (f : Filter) (s1 s2 x2 : ℕ) : ℤ :=
  clamp ⌈sampleCenter s1 s2 x2 - (filterRadius f s1 s2 : ℚ)⌉ 0 ((s1 : ℤ) - 1)

/-- The clamped window end as an isize, before the as-usize cast:
clamp(floor(x1 + filter_radius), 0, s1 - 1). -/
def endZ (f : Filter) (s1 s2 x2 : ℕ) : ℤ :=
  clamp ⌊sampleCenter s1 s2 x2 + (filterRadius f s1 s2 : ℚ)⌋ 0 ((s1 : ℤ) - 1)

/-- The window start after the as-usize cast. -/
def startOf (f : Filter) (s1 s2 x2 : ℕ) : ℕ := usizeCast (startZ f s1 s2 x2)

/-- The window end after the as-usize cast. -/
def endOf (f : Filter) (s1 s2 x2 : ℕ) : ℕ := usizeCast (endZ f s1 s2 x2)

/-- The source indices of the window: the usize range start..=end, which is
empty when start exceeds end. -/
def windowIdxs (f : Filter) (s1 s2 x2 : ℕ) : List ℕ :=
  if startOf f s1 s2 x2 ≤ endOf f s1 s2 x2 then
    List.range' (startOf f s1 s2 x2) (endOf f s1 s2 x2 + 1 - startOf f s1 s2 x2)
  else []

/-- The raw kernel weight of source index i: kernel((i - x1) / filter_scale). -/
def rawWeight (f : Filter) (s1 s2 x2 : ℕ) (i : ℕ) : ℚ :=
  f.kernel (((i : ℚ) - sampleCenter s1 s2 x2) / filterScale s1 s2)

/-- The sum of the raw weights over the window. -/
def weightSum (f : Filter) (s1 s2 x2 : ℕ) : ℚ :=
  ((windowIdxs f s1 s2 x2).map (rawWeight f s1 s2 x2)).sum

/-- The normalized weights: each raw weight divided by the raw sum. -/
def coeffsOf (f : Filter) (s1 s2 x2 : ℕ) : List ℚ :=
  (windowIdxs f s1 s2 x2).map (fun i => rawWeight f s1 s2 x2 i / weightSum f s1 s2 x2)

/-- One weight window of calc_coeffs, computed without the dedup cache. -/
def calcLine (f : Filter) (s1 s2 x2 : ℕ) : CoeffsLine :=
  ⟨startOf f s1 s2 x2, coeffsOf f s1 s2 x2⟩

/-- The cache-free reference coefficient computation: one window per
destination coordinate, each normalized independently (calc_coeffs of the
source with the recycled_coeffs cache dropped). -/
def calc_coeffs (s1 s2 : ℕ) (f : Filter) : List CoeffsLine :=
  (List.range s2).map (calcLine f s1 s2)

/-- Dedup cache key from calc_coeffs: (end - start as usize subtraction,
filter_scale, x1 - start); the f32 bit patterns of the source are modelled by
the exact rational values. -/
def keyOf (f : Filter) (s1 s2 x2 : ℕ) : ℕ × ℚ × ℚ :=
  (usizeCast ((endOf f s1 s2 x2 : ℤ) - (startOf f s1 s2 x2 : ℤ)),
   filterScale s1 s2,
   sampleCenter s1 s2 x2 - (startOf f s1 s2 x2 : ℚ))

/-- The dedup cache (recycled_coeffs of the source): a finite map from window
shape key to the shared normalized weights, modelled as an association list. -/
def cacheLookup : List ((ℕ × ℚ × ℚ) × List ℚ) → ℕ × ℚ × ℚ → Option (List ℚ)
  | [], _ => none
  | (k', v) :: c, k => if k = k' then some v else cacheLookup c k

/-- One window of calc_coeffs computed with the dedup cache: on a key hit the
stored weights are reused, otherwise the weights are computed and stored. -/
def calcLineCached (f : Filter) (s1 s2 x2 : ℕ)
    (c : List ((ℕ × ℚ × ℚ) × List ℚ)) :
    CoeffsLine × List ((ℕ × ℚ × ℚ) × List ℚ) :=
  match cacheLookup c (keyOf f s1 s2 x2) with
  | some v => (⟨startOf f s1 s2 x2, v⟩, c)
  | none =>
    (⟨startOf f s1 s2 x2, coeffsOf f s1 s2 x2⟩,
     (keyOf f s1 s2 x2, coeffsOf f s1 s2 x2) :: c)

/-- The cached coefficient computation over a list of destination coordinates,
threading the cache left to right. -/
def calcLinesCached (f : Filter) (s1 s2 : ℕ) :
    List ℕ → List ((ℕ × ℚ × ℚ) × List ℚ) →
    List CoeffsLine × List ((ℕ × ℚ × ℚ) × List ℚ)
  | [], c => ([], c)
  | x2 :: xs, c =>
    let lc := calcLineCached f s1 s2 x2 c
    let rest := calcLinesCached f s1 s2 xs lc.2
    (lc.1 :: rest.1, rest.2)

/-- calc_coeffs of the source as written: the per-axis table computed with the
dedup cache threaded through all destination coordinates. -/
def calcCoeffsCached (f : Filter) (s1 s2 : ℕ)
    (c : List ((ℕ × ℚ × ℚ) × List ℚ)) :
    List CoeffsLine × List ((ℕ × ℚ × ℚ) × List ℚ) :=
  calcLinesCached f s1 s2 (List.range s2) c

/-- The resampling engine state (struct Resizer of the source): dimensions and
the two per-axis coefficient tables.  The scratch buffer tmp is cleared at the
start of every resize call and is therefore modelled per call. -/
structure Resizer where
  w1 : ℕ
  h1 : ℕ
  w2 : ℕ
  h2 : ℕ
  coeffs_w : List CoeffsLine
  coeffs_h : List CoeffsLine

/-- Resizer::new from the source: compute the width-axis table with a fresh
dedup cache, share it for the height axis when both axes have identical
extents, and otherwise compute the height-axis table with the same cache. -/
def resizerNew (f : Filter) (w1 h1 w2 h2 : ℕ) : Resizer :=
  let cw := calcCoeffsCached f w1 w2 []
  let ch :=
    if h1 = w1 ∧ h2 = w2 then cw.1
    else (calcCoeffsCached f h1 h2 cw.2).1
  ⟨w1, h1, w2, h2, cw.1, ch⟩

/-- Modelled from the spec: the capability set of the pixel channel model of
section 4.3 (the PixelFormat trait lives in px.rs, which is not among the
sources): a zero accumulator, weighted accumulation of a source pixel,
weighted blending of an accumulator, and finalization to an output pixel. -/
structure PixelModel (Pix Acc Out : Type) where
  new : Acc
  add : Acc → Pix → ℚ → Acc
  add_acc : Acc → Acc → ℚ → Acc
  into_pixel : Acc → Out

/-- Modelled from the spec: the concrete pixel channel model for a format with
n channels and maximal component value m (covering Gray8, Gray16, RGB24,
RGB48, RGBA, RGBA64): pixels are lists of naturals, accumulators lists of
rationals; accumulate adds weight times the widened component per channel, and
finalize rounds to nearest and clamps each channel into the range 0..m. -/
def specFormat (n m : ℕ) : PixelModel (List ℕ) (List ℚ) (List ℕ) where
  new := List.replicate n 0
  add acc p w := acc.zipWith (fun a c => a + w * c) (p.map (fun (c : ℕ) => (c : ℚ)))
  add_acc acc o w := acc.zipWith (fun a c => a + w * c) o
  into_pixel acc := acc.map (fun q => (clamp (round q) 0 (m : ℤ)).toNat)

/-- A pixel widened to its per-channel rational accumulator (the acc[c] +=
weight * source_pixel[c] accumulation applied to a zero accumulator with
weight 1 produces exactly this). -/
def castPix (p : List ℕ) : List ℚ := p.map (fun (c : ℕ) => (c : ℚ))

/-- The identity coefficient table: one single-tap window per destination
coordinate, with weight exactly 1.0 and start equal to the coordinate. -/
def idTable (s : ℕ) : List CoeffsLine :=
  (List.range s).map (fun i => CoeffsLine.mk i [1])

/-- A short-circuiting accumulating loop over a list: the body may fail, and
the first failure aborts the whole loop (models a Rust loop whose body can
panic on an out-of-bounds index). -/
def accumOpt {α β : Type} (step : β → α → Option β) : β → List α → Option β
  | b, [] => some b
  | b, a :: l =>
    match step b a with
    | some b' => accumOpt step b' l
    | none => none

/-- A short-circuiting map over a list: the first failing element aborts
(models a Rust loop pushing one result per element, whose body can panic). -/
def optMap {α β : Type} (f : α → Option β) : List α → Option (List β)
  | [] => some []
  | a :: l =>
    match f a with
    | some b =>
      match optMap f l with
      | some bs => some (b :: bs)
      | none => none
    | none => none

/-- The inner accumulation of sample_rows for one (column x1, destination row
y2): slice the source at start * stride + x1 (in bounds or fail), then fold
the window weights over the source samples i * stride apart. -/
def rowAccum {Pix Acc Out : Type} (pm : PixelModel Pix Acc Out) (src : List Pix)
    (stride x1 : ℕ) (line : CoeffsLine) : Option Acc :=
  if line.start * stride + x1 ≤ src.length then
    accumOpt (fun acc i =>
      match line.coeffs[i]?, src[line.start * stride + x1 + i * stride]? with
      | some c, some p => some (pm.add acc p c)
      | _, _ => none) pm.new (List.range line.coeffs.length)
  else none

/-- sample_rows from the source: for every source column x1 and destination
row y2, accumulate the height-axis window of y2 down the column, pushing the
accumulators in (x1, y2) order into the scratch buffer. -/
def sampleRows {Pix Acc Out : Type} (pm : PixelModel Pix Acc Out) (e : Resizer)
    (src : List Pix) (stride : ℕ) : Option (List Acc) :=
  (optMap (fun x1 =>
      if e.h2 ≤ e.coeffs_h.length then
        optMap (fun y2 =>
          match e.coeffs_h[y2]? with
          | some line => rowAccum pm src stride x1 line
          | none => none) (List.range e.h2)
      else none) (List.range e.w1)).map List.flatten

/-- The inner accumulation of sample_cols for one (destination row y2,
destination column x2): blend the width-axis window over the scratch buffer
entries at (start + i) * h2 + y2. -/
def colAccum {Pix Acc Out : Type} (pm : PixelModel Pix Acc Out) (tmp : List Acc)
    (h2 y2 : ℕ) (line : CoeffsLine) : Option Acc :=
  accumOpt (fun acc i =>
    match line.coeffs[i]?, tmp[(line.start + i) * h2 + y2]? with
    | some c, some v => some (pm.add_acc acc v c)
    | _, _ => none) pm.new (List.range line.coeffs.length)

/-- sample_cols from the source: check that the destination is large enough,
then for every destination row y2 and column x2 blend the width-axis window
over the scratch buffer and finalize into the destination, row-major. -/
def sampleCols {Pix Acc Out : Type} (pm : PixelModel Pix Acc Out) (e : Resizer)
    (tmp : List Acc) (dstLen : ℕ) : Option (List Out) :=
  if e.h2 * e.w2 ≤ dstLen then
    (optMap (fun y2 =>
        if e.w2 ≤ e.coeffs_w.length then
          optMap (fun x2 =>
            match e.coeffs_w[x2]? with
            | some line => (colAccum pm tmp e.h2 y2 line).map pm.into_pixel
            | none => none) (List.range e.w2)
        else none) (List.range e.h2)).map List.flatten
  else none

/-- resize_internal from the source: assert the three buffer preconditions
(failure of any assertion is a fault, modelled as none), then run the vertical
pass followed by the horizontal pass.  The result is the destination contents;
none models a panic during the call. -/
def resizeInternal {Pix Acc Out : Type} (pm : PixelModel Pix Acc Out)
    (e : Resizer) (src : List Pix) (stride dstLen : ℕ) : Option (List Out) :=
  if e.w1 ≤ stride ∧ stride * e.h1 ≤ src.length ∧ dstLen = e.w2 * e.h2 then
    (sampleRows pm e src stride).bind (fun tmp => sampleCols pm e tmp dstLen)
  else none

/-- Resizer::resize from the source: resize_internal with the stride fixed to
the source width. -/
def resizeModel {Pix Acc Out : Type} (pm : PixelModel Pix Acc Out) (e : Resizer)
    (src : List Pix) (dstLen : ℕ) : Option (List Out) :=
  resizeInternal pm e src e.w1 dstLen

/-- Resizer::resize_stride from the source: resize_internal with a caller
supplied stride. -/
def resizeStrideModel {Pix Acc Out : Type} (pm : PixelModel Pix Acc Out)
    (e : Resizer) (src : List Pix) (stride dstLen : ℕ) : Option (List Out) :=
  resizeInternal pm e src stride dstLen

/-- The normalized weights as a function of the key alone: tap count minus
one, filter scale, and fractional offset of the center past the start. -/
def canonicalCoeffs (f : Filter) (n : ℕ) (sc frac : ℚ) : List ℚ :=
  ((List.range (n + 1)).map (fun (j : ℕ) => f.kernel (((j : ℚ) - frac) / sc))).map
    (fun w =>
      w / ((List.range (n + 1)).map
        (fun (j : ℕ) => f.kernel (((j : ℚ) - frac) / sc))).sum)

/-- Every weight list stored in the cache is the one the cache-free
computation would produce for any machine-range window with that key. -/
def CacheConsistent (f : Filter) (c : List ((ℕ × ℚ × ℚ) × List ℚ)) : Prop :=
  ∀ k v, cacheLookup c k = some v →
    ∀ s1 s2 x2 : ℕ, s1 < 2 ^ 64 → keyOf f s1 s2 x2 = k → coeffsOf f s1 s2 x2 = v

/-- A custom filter (Type::Custom) whose kernel is identically zero, with
support 0: a legal Filter value for the engine. -/
def zeroKernelFilter : Filter := ⟨fun _ => 0, 0⟩

/-! Basic facts about the machine-integer model. -/

theorem usizeCast_lt (x : ℤ) : usizeCast x < 2 ^ 64 := by
  unfold usizeCast; omega

theorem usizeCast_coe {x : ℤ} (h0 : 0 ≤ x) (h1 : x < 2 ^ 64) :
    (usizeCast x : ℤ) = x := by
  unfold usizeCast; omega

theorem usizeCast_le_toNat {x : ℤ} (h0 : 0 ≤ x) : usizeCast x ≤ x.toNat := by
  unfold usizeCast; omega

theorem usizeCast_neg_one : usizeCast (-1) = 2 ^ 64 - 1 := by
  unfold usizeCast; decide

theorem usizeCast_of_neg {x : ℤ} (h0 : -(2 ^ 64) ≤ x) (h1 : x < 0) :
    (usizeCast x : ℤ) = x + 2 ^ 64 := by
  unfold usizeCast; omega

theorem clamp_le_hi {x lo hi : ℤ} (h : lo ≤ hi) : clamp x lo hi ≤ hi := by
  unfold clamp; split_ifs <;> omega

theorem lo_le_clamp {x lo hi : ℤ} (h : lo ≤ hi) : lo ≤ clamp x lo hi := by
  unfold clamp; split_ifs <;> omega

theorem clamp_mono {a b lo hi : ℤ} (h : lo ≤ hi) (hab : a ≤ b) :
    clamp a lo hi ≤ clamp b lo hi := by
  unfold clamp; split_ifs <;> omega

theorem clamp_add_one_le {a lo hi : ℤ} (h : lo ≤ hi) :
    clamp (a + 1) lo hi ≤ clamp a lo hi + 1 := by
  unfold clamp; split_ifs <;> omega

/-! Window bounds for the coefficient calculator on a nonempty source axis. -/

theorem startZ_nonneg (f : Filter) {s1 : ℕ} (s2 x2 : ℕ) (hs1 : 1 ≤ s1) :
    0 ≤ startZ f s1 s2 x2 :=
  lo_le_clamp (by omega)

theorem startZ_le (f : Filter) {s1 : ℕ} (s2 x2 : ℕ) (hs1 : 1 ≤ s1) :
    startZ f s1 s2 x2 ≤ (s1 : ℤ) - 1 :=
  clamp_le_hi (by omega)

theorem endZ_nonneg (f : Filter) {s1 : ℕ} (s2 x2 : ℕ) (hs1 : 1 ≤ s1) :
    0 ≤ endZ f s1 s2 x2 :=
  lo_le_clamp (by omega)

theorem endZ_le (f : Filter) {s1 : ℕ} (s2 x2 : ℕ) (hs1 : 1 ≤ s1) :
    endZ f s1 s2 x2 ≤ (s1 : ℤ) - 1 :=
  clamp_le_hi (by omega)

theorem startOf_lt (f : Filter) {s1 : ℕ} (s2 x2 : ℕ) (hs1 : 1 ≤ s1) :
    startOf f s1 s2 x2 < s1 := by
  have h0 := startZ_nonneg f s2 x2 hs1
  have h1 := startZ_le f s2 x2 hs1
  have h2 := usizeCast_le_toNat h0
  unfold startOf
  omega

theorem endOf_lt (f : Filter) {s1 : ℕ} (s2 x2 : ℕ) (hs1 : 1 ≤ s1) :
    endOf f s1 s2 x2 < s1 := by
  have h0 := endZ_nonneg f s2 x2 hs1
  have h1 := endZ_le f s2 x2 hs1
  have h2 := usizeCast_le_toNat h0
  unfold endOf
  omega

theorem coeffsOf_length (f : Filter) (s1 s2 x2 : ℕ) :
    (coeffsOf f s1 s2 x2).length = (windowIdxs f s1 s2 x2).length := by
  unfold coeffsOf; simp

theorem windowIdxs_length (f : Filter) (s1 s2 x2 : ℕ) :
    (windowIdxs f s1 s2 x2).length =
      if startOf f s1 s2 x2 ≤ endOf f s1 s2 x2 then
        endOf f s1 s2 x2 + 1 - startOf f s1 s2 x2
      else 0 := by
  unfold windowIdxs
  split_ifs with h <;> simp [List.length_range']

theorem window_bound (f : Filter) {s1 : ℕ} (s2 x2 : ℕ) (hs1 : 1 ≤ s1) :
    startOf f s1 s2 x2 + (coeffsOf f s1 s2 x2).length ≤ s1 := by
  have hs := startOf_lt f s2 x2 hs1
  have he := endOf_lt f s2 x2 hs1
  rw [coeffsOf_length, windowIdxs_length]
  split_ifs with h <;> omega

/-- On a nonempty source axis no bigger than the machine word, the as-usize
casts of the clamped window ends are faithful. -/
theorem startOf_coe (f : Filter) {s1 : ℕ} (s2 x2 : ℕ) (hs1 : 1 ≤ s1)
    (hb : s1 ≤ 2 ^ 64) : (startOf f s1 s2 x2 : ℤ) = startZ f s1 s2 x2 := by
  have h0 := startZ_nonneg f s2 x2 hs1
  have h1 := startZ_le f s2 x2 hs1
  exact usizeCast_coe h0 (by push_cast at hb ⊢; omega)

theorem endOf_coe (f : Filter) {s1 : ℕ} (s2 x2 : ℕ) (hs1 : 1 ≤ s1)
    (hb : s1 ≤ 2 ^ 64) : (endOf f s1 s2 x2 : ℤ) = endZ f s1 s2 x2 := by
  have h0 := endZ_nonneg f s2 x2 hs1
  have h1 := endZ_le f s2 x2 hs1
  exact usizeCast_coe h0 (by push_cast at hb ⊢; omega)

/-! Generic lemmas about the short-circuiting loops. -/

theorem accumOpt_congr {α β : Type} (step : β → α → Option β) (g : β → α → β) :
    ∀ (l : List α) (b : β), (∀ b' a, a ∈ l → step b' a = some (g b' a)) →
      accumOpt step b l = some (l.foldl g b)
  | [], _, _ => rfl
  | a :: l, b, h => by
    simp only [accumOpt, h b a (List.mem_cons_self a l), List.foldl_cons]
    exact accumOpt_congr step g l (g b a)
      (fun b' a' ha' => h b' a' (List.mem_cons_of_mem a ha'))

theorem accumOpt_isSome {α β : Type} (step : β → α → Option β) :
    ∀ (l : List α) (b : β), (∀ b' a, a ∈ l → ∃ b'', step b' a = some b'') →
      ∃ r, accumOpt step b l = some r
  | [], b, _ => ⟨b, rfl⟩
  | a :: l, b, h => by
    obtain ⟨b', hb'⟩ := h b a (List.mem_cons_self a l)
    obtain ⟨r, hr⟩ := accumOpt_isSome step l b'
      (fun b'' a' ha' => h b'' a' (List.mem_cons_of_mem a ha'))
    exact ⟨r, by simp only [accumOpt, hb', hr]⟩

theorem optMap_congr {α β : Type} (f : α → Option β) (g : α → β) :
    ∀ l : List α, (∀ a ∈ l, f a = some (g a)) → optMap f l = some (l.map g)
  | [], _ => rfl
  | a :: l, h => by
    simp only [optMap, h a (List.mem_cons_self a l), List.map_cons]
    rw [optMap_congr f g l (fun a' ha' => h a' (List.mem_cons_of_mem a ha'))]

theorem optMap_isSome {α β : Type} (f : α → Option β) (P : β → Prop) :
    ∀ l : List α, (∀ a ∈ l, ∃ b, f a = some b ∧ P b) →
      ∃ bs, optMap f l = some bs ∧ bs.length = l.length ∧ ∀ b ∈ bs, P b
  | [], _ => ⟨[], rfl, rfl, by simp⟩
  | a :: l, h => by
    obtain ⟨b, hb, hPb⟩ := h a (List.mem_cons_self a l)
    obtain ⟨bs, hbs, hlen, hP⟩ := optMap_isSome f P l
      (fun a' ha' => h a' (List.mem_cons_of_mem a ha'))
    refine ⟨b :: bs, ?_, by simp [hlen], ?_⟩
    · simp only [optMap, hb, hbs]
    · intro b' hb'
      rcases List.mem_cons.mp hb' with h1 | h1
      · exact h1 ▸ hPb
      · exact hP b' h1

theorem accumOpt_cons_none {α β : Type} (step : β → α → Option β) (b : β) (a : α)
    (l : List α) (h : step b a = none) : accumOpt step b (a :: l) = none := by
  unfold accumOpt
  rw [h]

theorem optMap_cons_none {α β : Type} (f : α → Option β) (a : α) (l : List α)
    (h : f a = none) : optMap f (a :: l) = none := by
  unfold optMap
  rw [h]

/-! Facts about flattening a list of uniform-length rows. -/

theorem flatten_length_uniform {γ : Type} (m : ℕ) :
    ∀ rows : List (List γ), (∀ r ∈ rows, r.length = m) →
      rows.flatten.length = rows.length * m
  | [], _ => by simp
  | r :: rs, h => by
    have hr := h r (List.mem_cons_self r rs)
    have ih := flatten_length_uniform m rs (fun r' hr' => h r' (List.mem_cons_of_mem r hr'))
    simp only [List.flatten_cons, List.length_append, hr, ih, List.length_cons]
    ring

theorem flatten_getElem_uniform {γ : Type} (m : ℕ) :
    ∀ (rows : List (List γ)) (i j : ℕ), (∀ r ∈ rows, r.length = m) → j < m →
      rows.flatten[i * m + j]? =
        (match rows[i]? with
         | some r => r[j]?
         | none => none)
  | [], i, j, _, _ => by simp
  | r :: rs, 0, j, h, hj => by
    have hr := h r (List.mem_cons_self r rs)
    simp only [List.flatten_cons, Nat.zero_mul, Nat.zero_add]
    rw [List.getElem?_append_left (by omega)]
    simp
  | r :: rs, i + 1, j, h, hj => by
    have hr := h r (List.mem_cons_self r rs)
    have ih := flatten_getElem_uniform m rs i j
      (fun r' hr' => h r' (List.mem_cons_of_mem r hr')) hj
    have harith : (i + 1) * m + j - r.length = i * m + j := by
      rw [hr]; ring_nf; omega
    rw [List.flatten_cons, List.getElem?_append_right (by rw [hr]; nlinarith), harith, ih]
    simp

/-! The two passes succeed whenever the coefficient tables are in bounds and
the buffer preconditions hold. -/

theorem mul_add_lt_mul {a h x s : ℕ} (ha : a < h) (hx : x < s) :
    a * s + x < h * s := by
  have h1 : a * s + x < (a + 1) * s := by
    rw [Nat.succ_mul]; omega
  have h2 : (a + 1) * s ≤ h * s := Nat.mul_le_mul_right s (by omega)
  omega

theorem rowAccum_some {Pix Acc Out : Type} (pm : PixelModel Pix Acc Out)
    (src : List Pix) (stride x1 : ℕ) (line : CoeffsLine)
    (hslice : line.start * stride + x1 ≤ src.length)
    (hidx : ∀ i < line.coeffs.length,
      line.start * stride + x1 + i * stride < src.length) :
    ∃ acc, rowAccum pm src stride x1 line = some acc := by
  unfold rowAccum
  rw [if_pos hslice]
  apply accumOpt_isSome
  intro acc i hi
  rw [List.mem_range] at hi
  obtain ⟨c, hc⟩ : ∃ c, line.coeffs[i]? = some c :=
    ⟨_, List.getElem?_eq_getElem hi⟩
  obtain ⟨p, hp⟩ : ∃ p, src[line.start * stride + x1 + i * stride]? = some p :=
    ⟨_, List.getElem?_eq_getElem (hidx i hi)⟩
  exact ⟨pm.add acc p c, by rw [hc, hp]⟩

theorem colAccum_some {Pix Acc Out : Type} (pm : PixelModel Pix Acc Out)
    (tmp : List Acc) (h2 y2 : ℕ) (line : CoeffsLine)
    (hidx : ∀ i < line.coeffs.length, (line.start + i) * h2 + y2 < tmp.length) :
    ∃ acc, colAccum pm tmp h2 y2 line = some acc := by
  unfold colAccum
  apply accumOpt_isSome
  intro acc i hi
  rw [List.mem_range] at hi
  obtain ⟨c, hc⟩ : ∃ c, line.coeffs[i]? = some c :=
    ⟨_, List.getElem?_eq_getElem hi⟩
  obtain ⟨v, hv⟩ : ∃ v, tmp[(line.start + i) * h2 + y2]? = some v :=
    ⟨_, List.getElem?_eq_getElem (hidx i hi)⟩
  exact ⟨pm.add_acc acc v c, by rw [hc, hv]⟩

theorem sampleRows_some {Pix Acc Out : Type} (pm : PixelModel Pix Acc Out)
    (e : Resizer) (src : List Pix) (stride : ℕ)
    (hhlen : e.coeffs_h.length = e.h2)
    (hhb : ∀ line ∈ e.coeffs_h,
      line.start < e.h1 ∧ line.start + line.coeffs.length ≤ e.h1)
    (hstride : e.w1 ≤ stride) (hsrc : stride * e.h1 ≤ src.length) :
    ∃ tmp, sampleRows pm e src stride = some tmp ∧ tmp.length = e.w1 * e.h2 := by
  have houter : ∀ x1 ∈ List.range e.w1, ∃ row,
      (if e.h2 ≤ e.coeffs_h.length then
        optMap (fun y2 =>
          match e.coeffs_h[y2]? with
          | some line => rowAccum pm src stride x1 line
          | none => none) (List.range e.h2)
      else none) = some row ∧ row.length = e.h2 := by
    intro x1 hx1
    rw [List.mem_range] at hx1
    rw [if_pos (by omega)]
    have hinner : ∀ y2 ∈ List.range e.h2, ∃ acc,
        (match e.coeffs_h[y2]? with
         | some line => rowAccum pm src stride x1 line
         | none => none) = some acc ∧ True := by
      intro y2 hy2
      rw [List.mem_range] at hy2
      have hy2' : y2 < e.coeffs_h.length := by omega
      have hline : e.coeffs_h[y2]? = some e.coeffs_h[y2] :=
        List.getElem?_eq_getElem hy2'
      obtain ⟨hs1, hs2⟩ := hhb e.coeffs_h[y2] (List.getElem_mem hy2')
      have hx1s : x1 < stride := by omega
      obtain ⟨acc, hacc⟩ := rowAccum_some pm src stride x1 e.coeffs_h[y2]
        (by
          have h1 : e.coeffs_h[y2].start * stride + x1 < e.h1 * stride :=
            mul_add_lt_mul hs1 hx1s
          have h2 : e.h1 * stride = stride * e.h1 := Nat.mul_comm _ _
          omega)
        (by
          intro i hi
          have hlt : e.coeffs_h[y2].start + i < e.h1 := by omega
          have h1 : (e.coeffs_h[y2].start + i) * stride + x1 < e.h1 * stride :=
            mul_add_lt_mul hlt hx1s
          have h2 : e.h1 * stride = stride * e.h1 := Nat.mul_comm _ _
          have h3 : (e.coeffs_h[y2].start + i) * stride =
              e.coeffs_h[y2].start * stride + i * stride := by ring
          omega)
      exact ⟨acc, by simp only [hline, hacc], trivial⟩
    obtain ⟨row, hrow, hlen, -⟩ := optMap_isSome
      (fun y2 =>
        match e.coeffs_h[y2]? with
        | some line => rowAccum pm src stride x1 line
        | none => none) (fun _ => True) (List.range e.h2) hinner
    refine ⟨row, hrow, ?_⟩
    rw [hlen, List.length_range]
  obtain ⟨rows, hrows, hrlen, hrP⟩ := optMap_isSome
    (fun x1 =>
      if e.h2 ≤ e.coeffs_h.length then
        optMap (fun y2 =>
          match e.coeffs_h[y2]? with
          | some line => rowAccum pm src stride x1 line
          | none => none) (List.range e.h2)
      else none) (fun row => row.length = e.h2) (List.range e.w1) houter
  refine ⟨rows.flatten, ?_, ?_⟩
  · unfold sampleRows
    rw [hrows]
    rfl
  · rw [flatten_length_uniform e.h2 rows hrP, hrlen, List.length_range]

theorem sampleCols_some {Pix Acc Out : Type} (pm : PixelModel Pix Acc Out)
    (e : Resizer) (tmp : List Acc) (dstLen : ℕ)
    (hwlen : e.coeffs_w.length = e.w2)
    (hwb : ∀ line ∈ e.coeffs_w, line.start + line.coeffs.length ≤ e.w1)
    (htmp : tmp.length = e.w1 * e.h2)
    (hdst : e.h2 * e.w2 ≤ dstLen) :
    ∃ out, sampleCols pm e tmp dstLen = some out ∧ out.length = e.h2 * e.w2 := by
  have houter : ∀ y2 ∈ List.range e.h2, ∃ row,
      (if e.w2 ≤ e.coeffs_w.length then
        optMap (fun x2 =>
          match e.coeffs_w[x2]? with
          | some line => (colAccum pm tmp e.h2 y2 line).map pm.into_pixel
          | none => none) (List.range e.w2)
      else none) = some row ∧ row.length = e.w2 := by
    intro y2 hy2
    rw [List.mem_range] at hy2
    rw [if_pos (by omega)]
    have hinner : ∀ x2 ∈ List.range e.w2, ∃ px,
        (match e.coeffs_w[x2]? with
         | some line => (colAccum pm tmp e.h2 y2 line).map pm.into_pixel
         | none => none) = some px ∧ True := by
      intro x2 hx2
      rw [List.mem_range] at hx2
      have hx2' : x2 < e.coeffs_w.length := by omega
      have hline : e.coeffs_w[x2]? = some e.coeffs_w[x2] :=
        List.getElem?_eq_getElem hx2'
      have hb := hwb e.coeffs_w[x2] (List.getElem_mem hx2')
      obtain ⟨acc, hacc⟩ := colAccum_some pm tmp e.h2 y2 e.coeffs_w[x2]
        (by
          intro i hi
          have hlt : e.coeffs_w[x2].start + i < e.w1 := by omega
          have h1 : (e.coeffs_w[x2].start + i) * e.h2 + y2 < e.w1 * e.h2 :=
            mul_add_lt_mul hlt hy2
          omega)
      exact ⟨pm.into_pixel acc, by simp only [hline, hacc, Option.map_some'], trivial⟩
    obtain ⟨row, hrow, hlen, -⟩ := optMap_isSome
      (fun x2 =>
        match e.coeffs_w[x2]? with
        | some line => (colAccum pm tmp e.h2 y2 line).map pm.into_pixel
        | none => none) (fun _ => True) (List.range e.w2) hinner
    refine ⟨row, hrow, ?_⟩
    rw [hlen, List.length_range]
  obtain ⟨rows, hrows, hrlen, hrP⟩ := optMap_isSome
    (fun y2 =>
      if e.w2 ≤ e.coeffs_w.length then
        optMap (fun x2 =>
          match e.coeffs_w[x2]? with
          | some line => (colAccum pm tmp e.h2 y2 line).map pm.into_pixel
          | none => none) (List.range e.w2)
      else none) (fun row => row.length = e.w2) (List.range e.h2) houter
  refine ⟨rows.flatten, ?_, ?_⟩
  · unfold sampleCols
    rw [if_pos hdst, hrows]
    rfl
  · rw [flatten_length_uniform e.w2 rows hrP, hrlen, List.length_range]

/-- Main success lemma: with in-bounds coefficient tables of the right lengths
and the three buffer preconditions, resize_internal completes and fills the
whole destination. -/
theorem resizeInternal_some {Pix Acc Out : Type} (pm : PixelModel Pix Acc Out)
    (e : Resizer) (src : List Pix) (stride dstLen : ℕ)
    (hwlen : e.coeffs_w.length = e.w2) (hhlen : e.coeffs_h.length = e.h2)
    (hwb : ∀ line ∈ e.coeffs_w, line.start + line.coeffs.length ≤ e.w1)
    (hhb : ∀ line ∈ e.coeffs_h,
      line.start < e.h1 ∧ line.start + line.coeffs.length ≤ e.h1)
    (hstride : e.w1 ≤ stride) (hsrc : stride * e.h1 ≤ src.length)
    (hdst : dstLen = e.w2 * e.h2) :
    ∃ out, resizeInternal pm e src stride dstLen = some out ∧
      out.length = e.w2 * e.h2 := by
  obtain ⟨tmp, htmp, htmplen⟩ := sampleRows_some pm e src stride hhlen hhb hstride hsrc
  obtain ⟨out, hout, houtlen⟩ := sampleCols_some pm e tmp dstLen hwlen hwb htmplen
    (by rw [hdst]; exact Nat.le_of_eq (Nat.mul_comm _ _))
  refine ⟨out, ?_, by rw [houtlen]; exact Nat.mul_comm _ _⟩
  unfold resizeInternal
  rw [if_pos ⟨hstride, hsrc, hdst⟩, htmp]
  exact hout

/-! The dedup cache key determines the normalized weights.  This is the heart
of the cache-transparency argument: two windows (possibly on different axes)
with the same key have identical weight lists. -/

theorem keyOf_fst (f : Filter) (s1 s2 x2 : ℕ) :
    (keyOf f s1 s2 x2).1 =
      usizeCast ((endOf f s1 s2 x2 : ℤ) - (startOf f s1 s2 x2 : ℤ)) := rfl

theorem keyN_nonempty (f : Filter) (s1 s2 x2 : ℕ)
    (hne : startOf f s1 s2 x2 ≤ endOf f s1 s2 x2) :
    (keyOf f s1 s2 x2).1 = endOf f s1 s2 x2 - startOf f s1 s2 x2 := by
  have hlt : endOf f s1 s2 x2 < 2 ^ 64 := usizeCast_lt _
  have h0 : (0 : ℤ) ≤ (endOf f s1 s2 x2 : ℤ) - (startOf f s1 s2 x2 : ℤ) := by
    have h : (startOf f s1 s2 x2 : ℤ) ≤ (endOf f s1 s2 x2 : ℤ) := by
      exact_mod_cast hne
    omega
  have h1 : (endOf f s1 s2 x2 : ℤ) - (startOf f s1 s2 x2 : ℤ) < 2 ^ 64 := by
    omega
  have h2 := usizeCast_coe h0 h1
  rw [keyOf_fst]
  zify [hne]
  exact h2

theorem windowIdxs_eq_map (f : Filter) (s1 s2 x2 : ℕ)
    (hne : startOf f s1 s2 x2 ≤ endOf f s1 s2 x2) :
    windowIdxs f s1 s2 x2 =
      (List.range (endOf f s1 s2 x2 - startOf f s1 s2 x2 + 1)).map
        (fun j => startOf f s1 s2 x2 + j) := by
  unfold windowIdxs
  have harith : endOf f s1 s2 x2 + 1 - startOf f s1 s2 x2 =
      endOf f s1 s2 x2 - startOf f s1 s2 x2 + 1 := by omega
  rw [if_pos hne, harith, List.range'_eq_map_range]

theorem coeffsOf_canonical (f : Filter) (s1 s2 x2 : ℕ)
    (hne : startOf f s1 s2 x2 ≤ endOf f s1 s2 x2) :
    coeffsOf f s1 s2 x2 =
      canonicalCoeffs f (endOf f s1 s2 x2 - startOf f s1 s2 x2)
        (filterScale s1 s2)
        (sampleCenter s1 s2 x2 - (startOf f s1 s2 x2 : ℚ)) := by
  have hshift : ∀ j : ℕ, rawWeight f s1 s2 x2 (startOf f s1 s2 x2 + j) =
      f.kernel (((j : ℚ) - (sampleCenter s1 s2 x2 - (startOf f s1 s2 x2 : ℚ))) /
        filterScale s1 s2) := by
    intro j
    unfold rawWeight
    congr 1
    push_cast
    ring
  unfold coeffsOf weightSum
  rw [windowIdxs_eq_map f s1 s2 x2 hne]
  unfold canonicalCoeffs
  simp only [List.map_map, Function.comp_def, hshift]

theorem coeffsOf_empty (f : Filter) (s1 s2 x2 : ℕ)
    (hne : ¬ startOf f s1 s2 x2 ≤ endOf f s1 s2 x2) :
    coeffsOf f s1 s2 x2 = [] := by
  unfold coeffsOf windowIdxs
  rw [if_neg hne]
  rfl

/-! Sign of the filter radius versus window emptiness. -/

theorem filterRadius_congr (f : Filter) {s1 s2 s1' s2' : ℕ}
    (h : filterScale s1 s2 = filterScale s1' s2') :
    filterRadius f s1 s2 = filterRadius f s1' s2' := by
  unfold filterRadius
  rw [h]

theorem startZ_le_endZ_of_radius_pos (f : Filter) {s1 : ℕ} (s2 x2 : ℕ)
    (hs1 : 1 ≤ s1) (hr : 1 ≤ filterRadius f s1 s2) :
    startZ f s1 s2 x2 ≤ endZ f s1 s2 x2 := by
  unfold startZ endZ
  have h1 : ⌈sampleCenter s1 s2 x2 - (filterRadius f s1 s2 : ℚ)⌉ =
      ⌈sampleCenter s1 s2 x2⌉ - filterRadius f s1 s2 := by
    exact_mod_cast Int.ceil_sub_int (sampleCenter s1 s2 x2) (filterRadius f s1 s2)
  have h2 : ⌊sampleCenter s1 s2 x2 + (filterRadius f s1 s2 : ℚ)⌋ =
      ⌊sampleCenter s1 s2 x2⌋ + filterRadius f s1 s2 := by
    exact_mod_cast Int.floor_add_int (sampleCenter s1 s2 x2) (filterRadius f s1 s2)
  rw [h1, h2]
  apply clamp_mono (by omega)
  have h3 := Int.ceil_le_floor_add_one (sampleCenter s1 s2 x2)
  omega

theorem endZ_le_startZ_of_radius_nonpos (f : Filter) {s1 : ℕ} (s2 x2 : ℕ)
    (hs1 : 1 ≤ s1) (hr : filterRadius f s1 s2 ≤ 0) :
    endZ f s1 s2 x2 ≤ startZ f s1 s2 x2 := by
  unfold startZ endZ
  have h1 : ⌈sampleCenter s1 s2 x2 - (filterRadius f s1 s2 : ℚ)⌉ =
      ⌈sampleCenter s1 s2 x2⌉ - filterRadius f s1 s2 := by
    exact_mod_cast Int.ceil_sub_int (sampleCenter s1 s2 x2) (filterRadius f s1 s2)
  have h2 : ⌊sampleCenter s1 s2 x2 + (filterRadius f s1 s2 : ℚ)⌋ =
      ⌊sampleCenter s1 s2 x2⌋ + filterRadius f s1 s2 := by
    exact_mod_cast Int.floor_add_int (sampleCenter s1 s2 x2) (filterRadius f s1 s2)
  rw [h1, h2]
  apply clamp_mono (by omega)
  have h3 := Int.floor_le_ceil (sampleCenter s1 s2 x2)
  omega

/-! The degenerate source axis of extent 0. -/

theorem sampleCenter_zero (s2 x2 : ℕ) : sampleCenter 0 s2 x2 = -(1/2) := by
  unfold sampleCenter ratioOf
  push_cast
  ring

theorem ceil_center_zero (s2 x2 : ℕ) : ⌈sampleCenter 0 s2 x2⌉ = 0 := by
  rw [sampleCenter_zero, Int.ceil_eq_iff]
  constructor <;> norm_num

theorem floor_center_zero (s2 x2 : ℕ) : ⌊sampleCenter 0 s2 x2⌋ = -1 := by
  rw [sampleCenter_zero, Int.floor_eq_iff]
  constructor <;> norm_num

theorem startZ_zero_of_radius_pos (f : Filter) (s2 x2 : ℕ)
    (hr : 1 ≤ filterRadius f 0 s2) : startZ f 0 s2 x2 = 0 := by
  unfold startZ
  have h1 : ⌈sampleCenter 0 s2 x2 - (filterRadius f 0 s2 : ℚ)⌉ =
      ⌈sampleCenter 0 s2 x2⌉ - filterRadius f 0 s2 := by
    exact_mod_cast Int.ceil_sub_int (sampleCenter 0 s2 x2) (filterRadius f 0 s2)
  rw [h1, ceil_center_zero]
  unfold clamp
  split_ifs <;> omega

theorem endZ_zero_of_radius_pos (f : Filter) (s2 x2 : ℕ)
    (hr : 1 ≤ filterRadius f 0 s2) : endZ f 0 s2 x2 = -1 := by
  unfold endZ
  have h2 : ⌊sampleCenter 0 s2 x2 + (filterRadius f 0 s2 : ℚ)⌋ =
      ⌊sampleCenter 0 s2 x2⌋ + filterRadius f 0 s2 := by
    exact_mod_cast Int.floor_add_int (sampleCenter 0 s2 x2) (filterRadius f 0 s2)
  rw [h2, floor_center_zero]
  unfold clamp
  split_ifs <;> omega

theorem startZ_zero_of_radius_nonpos (f : Filter) (s2 x2 : ℕ)
    (hr : filterRadius f 0 s2 ≤ 0) : startZ f 0 s2 x2 = -1 := by
  unfold startZ
  have h1 : ⌈sampleCenter 0 s2 x2 - (filterRadius f 0 s2 : ℚ)⌉ =
      ⌈sampleCenter 0 s2 x2⌉ - filterRadius f 0 s2 := by
    exact_mod_cast Int.ceil_sub_int (sampleCenter 0 s2 x2) (filterRadius f 0 s2)
  rw [h1, ceil_center_zero]
  unfold clamp
  split_ifs <;> omega

/-- Two windows computed with the same kernel whose dedup keys coincide, one
nonempty and one empty, cannot exist. -/
theorem mixed_impossible (f : Filter) {s1 s2 x2 s1' s2' x2' : ℕ}
    (hb : s1 < 2 ^ 64) (hb' : s1' < 2 ^ 64)
    (hk : keyOf f s1 s2 x2 = keyOf f s1' s2' x2')
    (hne : startOf f s1 s2 x2 ≤ endOf f s1 s2 x2)
    (hne' : endOf f s1' s2' x2' < startOf f s1' s2' x2') : False := by
  have hsc : filterScale s1 s2 = filterScale s1' s2' := congrArg (fun k => k.2.1) hk
  have hrad : filterRadius f s1 s2 = filterRadius f s1' s2' := filterRadius_congr f hsc
  have hn : (keyOf f s1 s2 x2).1 = (keyOf f s1' s2' x2').1 := congrArg (fun k => k.1) hk
  rw [keyN_nonempty f s1 s2 x2 hne, keyOf_fst] at hn
  have hstlt' : startOf f s1' s2' x2' < 2 ^ 64 := usizeCast_lt _
  have henlt' : endOf f s1' s2' x2' < 2 ^ 64 := usizeCast_lt _
  have henlt : endOf f s1 s2 x2 < 2 ^ 64 := usizeCast_lt _
  have hneg : ((endOf f s1' s2' x2' : ℤ) - (startOf f s1' s2' x2' : ℤ)) < 0 := by
    have h : (endOf f s1' s2' x2' : ℤ) < (startOf f s1' s2' x2' : ℤ) := by
      exact_mod_cast hne'
    omega
  have hgeneg : -(2 ^ 64) ≤ (endOf f s1' s2' x2' : ℤ) - (startOf f s1' s2' x2' : ℤ) := by
    omega
  have hwrap := usizeCast_of_neg hgeneg hneg
  -- hence the wrapped key is at least 1, so the nonempty window has n at least 1
  have htaps : 1 ≤ endOf f s1 s2 x2 - startOf f s1 s2 x2 := by
    omega
  by_cases hr : 1 ≤ filterRadius f s1 s2
  · -- a positive radius makes every window nonempty
    rcases Nat.eq_zero_or_pos s1' with h0' | h1'
    · subst h0'
      have hs := startZ_zero_of_radius_pos f s2' x2' (hrad ▸ hr)
      have hz : startOf f 0 s2' x2' = 0 := by
        unfold startOf
        rw [hs]
        rfl
      omega
    · have hord := startZ_le_endZ_of_radius_pos f s2' x2' h1' (hrad ▸ hr)
      have hcs := startOf_coe f s2' x2' h1' (by omega)
      have hce := endOf_coe f s2' x2' h1' (by omega)
      have h : (startOf f s1' s2' x2' : ℤ) ≤ (endOf f s1' s2' x2' : ℤ) := by
        rw [hcs, hce]; exact hord
      omega
  · -- a nonpositive radius makes every window at most a single tap
    have hr' : filterRadius f s1 s2 ≤ 0 := by omega
    rcases Nat.eq_zero_or_pos s1 with h0 | h1
    · subst h0
      have hs := startZ_zero_of_radius_nonpos f s2 x2 hr'
      have hz : startOf f 0 s2 x2 = 2 ^ 64 - 1 := by
        unfold startOf
        rw [hs]
        exact usizeCast_neg_one
      omega
    · have hord := endZ_le_startZ_of_radius_nonpos f s2 x2 h1 hr'
      have hcs := startOf_coe f s2 x2 h1 (by omega)
      have hce := endOf_coe f s2 x2 h1 (by omega)
      have h : (endOf f s1 s2 x2 : ℤ) ≤ (startOf f s1 s2 x2 : ℤ) := by
        rw [hcs, hce]; exact hord
      omega

/-- The dedup key determines the normalized weight list, across axes and
destination coordinates, for any kernel and machine-range source extents. -/
theorem key_determines (f : Filter) {s1 s2 x2 s1' s2' x2' : ℕ}
    (hb : s1 < 2 ^ 64) (hb' : s1' < 2 ^ 64)
    (hk : keyOf f s1 s2 x2 = keyOf f s1' s2' x2') :
    coeffsOf f s1 s2 x2 = coeffsOf f s1' s2' x2' := by
  have hsc : filterScale s1 s2 = filterScale s1' s2' := congrArg (fun k => k.2.1) hk
  have hfrac : sampleCenter s1 s2 x2 - (startOf f s1 s2 x2 : ℚ) =
      sampleCenter s1' s2' x2' - (startOf f s1' s2' x2' : ℚ) :=
    congrArg (fun k => k.2.2) hk
  by_cases hne : startOf f s1 s2 x2 ≤ endOf f s1 s2 x2
  · by_cases hne' : startOf f s1' s2' x2' ≤ endOf f s1' s2' x2'
    · have hn : (keyOf f s1 s2 x2).1 = (keyOf f s1' s2' x2').1 :=
        congrArg (fun k => k.1) hk
      rw [keyN_nonempty f s1 s2 x2 hne, keyN_nonempty f s1' s2' x2' hne'] at hn
      rw [coeffsOf_canonical f s1 s2 x2 hne, coeffsOf_canonical f s1' s2' x2' hne',
        hn, hsc, hfrac]
    · exact (mixed_impossible f hb hb' hk hne (by omega)).elim
  · by_cases hne' : startOf f s1' s2' x2' ≤ endOf f s1' s2' x2'
    · exact (mixed_impossible f hb' hb hk.symm hne' (by omega)).elim
    · rw [coeffsOf_empty f s1 s2 x2 hne, coeffsOf_empty f s1' s2' x2' hne']

/-! Transparency of the dedup cache: the cached computation returns exactly
the cache-free tables. -/

theorem cacheConsistent_nil (f : Filter) : CacheConsistent f [] := by
  intro k v h
  exact absurd h (by unfold cacheLookup; simp)

theorem calcLineCached_eq (f : Filter) (s1 s2 x2 : ℕ)
    (c : List ((ℕ × ℚ × ℚ) × List ℚ)) (hc : CacheConsistent f c)
    (hb : s1 < 2 ^ 64) :
    (calcLineCached f s1 s2 x2 c).1 = calcLine f s1 s2 x2 ∧
      CacheConsistent f (calcLineCached f s1 s2 x2 c).2 := by
  unfold calcLineCached
  cases hl : cacheLookup c (keyOf f s1 s2 x2) with
  | some v =>
    refine ⟨?_, hc⟩
    have hv := hc _ _ hl s1 s2 x2 hb rfl
    unfold calcLine
    rw [hv]
  | none =>
    refine ⟨rfl, ?_⟩
    intro k v hkv t1 t2 tx2 htb htk
    unfold cacheLookup at hkv
    by_cases hkk : k = keyOf f s1 s2 x2
    · rw [if_pos hkk] at hkv
      cases hkv
      exact key_determines f htb hb (hkk ▸ htk)
    · rw [if_neg hkk] at hkv
      exact hc _ _ hkv t1 t2 tx2 htb htk

theorem calcLinesCached_eq (f : Filter) (s1 s2 : ℕ) (hb : s1 < 2 ^ 64) :
    ∀ (xs : List ℕ) (c : List ((ℕ × ℚ × ℚ) × List ℚ)), CacheConsistent f c →
      (calcLinesCached f s1 s2 xs c).1 = xs.map (calcLine f s1 s2) ∧
        CacheConsistent f (calcLinesCached f s1 s2 xs c).2
  | [], c, hc => ⟨rfl, hc⟩
  | x2 :: xs, c, hc => by
    obtain ⟨hline, hc'⟩ := calcLineCached_eq f s1 s2 x2 c hc hb
    obtain ⟨hrest, hc''⟩ := calcLinesCached_eq f s1 s2 hb xs
      (calcLineCached f s1 s2 x2 c).2 hc'
    unfold calcLinesCached
    exact ⟨by rw [List.map_cons, ← hline, ← hrest], hc''⟩

theorem calcCoeffsCached_eq (f : Filter) (s1 s2 : ℕ)
    (c : List ((ℕ × ℚ × ℚ) × List ℚ)) (hc : CacheConsistent f c)
    (hb : s1 < 2 ^ 64) :
    (calcCoeffsCached f s1 s2 c).1 = calc_coeffs s1 s2 f ∧
      CacheConsistent f (calcCoeffsCached f s1 s2 c).2 := by
  unfold calcCoeffsCached calc_coeffs
  exact calcLinesCached_eq f s1 s2 hb (List.range s2) c hc

/-- The engine constructor produces exactly the cache-free per-axis tables:
the dedup cache, also when shared across the two axes, never changes any
window. -/
theorem resizerNew_coeffs (f : Filter) (w1 h1 w2 h2 : ℕ)
    (hbw : w1 < 2 ^ 64) (hbh : h1 < 2 ^ 64) :
    (resizerNew f w1 h1 w2 h2).coeffs_w = calc_coeffs w1 w2 f ∧
      (resizerNew f w1 h1 w2 h2).coeffs_h = calc_coeffs h1 h2 f := by
  obtain ⟨hw, hcw⟩ := calcCoeffsCached_eq f w1 w2 [] (cacheConsistent_nil f) hbw
  obtain ⟨hh, _⟩ := calcCoeffsCached_eq f h1 h2 (calcCoeffsCached f w1 w2 []).2 hcw hbh
  unfold resizerNew
  simp only
  refine ⟨hw, ?_⟩
  split_ifs with hsq
  · obtain ⟨he1, he2⟩ := hsq
    rw [hw, he1, he2]
  · exact hh

/-! Per-axis facts about the cache-free tables. -/

theorem calc_coeffs_length (s1 s2 : ℕ) (f : Filter) :
    (calc_coeffs s1 s2 f).length = s2 := by
  unfold calc_coeffs
  rw [List.length_map, List.length_range]

theorem calc_coeffs_bounds (f : Filter) {s1 : ℕ} (s2 : ℕ) (hs1 : 1 ≤ s1) :
    ∀ line ∈ calc_coeffs s1 s2 f,
      line.start < s1 ∧ line.start + line.coeffs.length ≤ s1 := by
  intro line hl
  unfold calc_coeffs at hl
  rw [List.mem_map] at hl
  obtain ⟨x2, _, rfl⟩ := hl
  exact ⟨startOf_lt f s2 x2 hs1, window_bound f s2 x2 hs1⟩

theorem clamp_zero_zero (x : ℤ) : clamp x 0 0 = 0 := by
  unfold clamp
  split_ifs <;> omega

/-! Concrete evaluation of the width-1 source axis window of the Triangle
filter used by the counterexamples below: for source extent 0 the code clamps
the window end to the isize value -1, which the as-usize cast wraps to
2 to the 64 minus 1, producing an astronomically long window. -/

theorem tri01_radius : filterRadius triangleFilter 0 1 = 1 := by
  unfold filterRadius filterScale ratioOf triangleFilter
  norm_num

theorem tri01_start : startOf triangleFilter 0 1 0 = 0 := by
  unfold startOf
  rw [startZ_zero_of_radius_pos triangleFilter 1 0 (by rw [tri01_radius])]
  rfl

theorem tri01_end : endOf triangleFilter 0 1 0 = 2 ^ 64 - 1 := by
  unfold endOf
  rw [endZ_zero_of_radius_pos triangleFilter 1 0 (by rw [tri01_radius])]
  exact usizeCast_neg_one

theorem tri01_len : (coeffsOf triangleFilter 0 1 0).length = 2 ^ 64 := by
  rw [coeffsOf_length, windowIdxs_length, if_pos (by rw [tri01_start, tri01_end]; omega),
    tri01_start, tri01_end]
  omega

theorem range_one_eq : List.range 1 = [0] := rfl

theorem tri01_calc : calc_coeffs 0 1 triangleFilter = [calcLine triangleFilter 0 1 0] := by
  unfold calc_coeffs
  rw [range_one_eq, List.map_cons, List.map_nil]

theorem tri01_coeff0 : ∃ c, (coeffsOf triangleFilter 0 1 0)[0]? = some c :=
  ⟨_, List.getElem?_eq_getElem (by rw [tri01_len]; norm_num)⟩

/-! Claim theorems. -/

/-- C1: the claim that every computed WeightWindow has weights summing to
within 1e-5 of 1 fails in the code at source extent 2, destination extent 1
with the Point filter: the window start exceeds the window end, the tap range
start..=end is empty, and the produced window is (start 1, no weights) whose
weight sum is 0 (in debug builds the key computation end - start additionally
underflows).  This theorem evaluates the code at that failing input. -/
theorem C1_point_downscale_empty_window :
    calc_coeffs 2 1 pointFilter = [⟨1, []⟩] ∧
      ∃ line ∈ calc_coeffs 2 1 pointFilter,
        ¬ |line.coeffs.sum - 1| < 1 / 100000 := by
  have hsc : filterScale 2 1 = 2 := by
    unfold filterScale ratioOf
    norm_num
  have hr : filterRadius pointFilter 2 1 = 0 := by
    unfold filterRadius pointFilter
    norm_num
  have hcen : sampleCenter 2 1 0 = 1 / 2 := by
    unfold sampleCenter ratioOf
    norm_num
  have hsZ : startZ pointFilter 2 1 0 = 1 := by
    unfold startZ
    rw [hcen, hr]
    have hc : ⌈(1 / 2 : ℚ) - ((0 : ℤ) : ℚ)⌉ = 1 := by
      rw [Int.ceil_eq_iff]
      norm_num
    rw [hc]
    unfold clamp
    norm_num
  have heZ : endZ pointFilter 2 1 0 = 0 := by
    unfold endZ
    rw [hcen, hr]
    have hf : ⌊(1 / 2 : ℚ) + ((0 : ℤ) : ℚ)⌋ = 0 := by
      rw [Int.floor_eq_iff]
      norm_num
    rw [hf]
    unfold clamp
    norm_num
  have hst : startOf pointFilter 2 1 0 = 1 := by
    unfold startOf
    rw [hsZ]
    rfl
  have hen : endOf pointFilter 2 1 0 = 0 := by
    unfold endOf
    rw [heZ]
    rfl
  have hwin : windowIdxs pointFilter 2 1 0 = [] := by
    unfold windowIdxs
    rw [hst, hen]
    norm_num
  have hcoe : coeffsOf pointFilter 2 1 0 = [] := by
    unfold coeffsOf
    rw [hwin]
    rfl
  have hcalc : calc_coeffs 2 1 pointFilter = [⟨1, []⟩] := by
    unfold calc_coeffs
    rw [range_one_eq, List.map_cons, List.map_nil]
    unfold calcLine
    rw [hst, hcoe]
  refine ⟨hcalc, ⟨1, []⟩, by rw [hcalc]; exact List.mem_singleton.mpr rfl, ?_⟩
  norm_num

/-- C3 counterexample: at source extent 0 (and destination extent 1, Triangle
filter) the window start is clamped to the isize -1 bound and cast, and the
single produced window has 2 to the 64 taps, so start + len - 1 is far above
S1 - 1 = -1: the claim fails as stated for source extent 0. -/
theorem C3_counterexample :
    ∃ line ∈ calc_coeffs 0 1 triangleFilter,
      ¬ (0 ≤ (line.start : ℤ) ∧
        (line.start : ℤ) + (line.coeffs.length : ℤ) - 1 ≤ (0 : ℤ) - 1) := by
  refine ⟨calcLine triangleFilter 0 1 0, by rw [tri01_calc]; exact List.mem_singleton.mpr rfl, ?_⟩
  intro h
  obtain ⟨-, h2⟩ := h
  have hst : (calcLine triangleFilter 0 1 0).start = 0 := tri01_start
  have hlen : (calcLine triangleFilter 0 1 0).coeffs.length = 2 ^ 64 := tri01_len
  rw [hst, hlen] at h2
  norm_num at h2

/-- C3 (amended): for every source extent S1 at least 1, destination extent,
and kernel, every window of the computed axis coefficients satisfies
0 <= start and start + len(weights) - 1 <= S1 - 1. -/
theorem C3_window_bounds (f : Filter) {s1 : ℕ} (s2 : ℕ) (hs1 : 1 ≤ s1) :
    ∀ line ∈ calc_coeffs s1 s2 f,
      0 ≤ (line.start : ℤ) ∧
        (line.start : ℤ) + (line.coeffs.length : ℤ) - 1 ≤ (s1 : ℤ) - 1 := by
  intro line hl
  obtain ⟨h1, h2⟩ := calc_coeffs_bounds f s2 hs1 line hl
  constructor
  · exact_mod_cast Nat.zero_le _
  · omega

/-- Witness for C3: the bound evaluated at the first Triangle window for a
2-pixel source axis scaled to 3. -/
theorem C3_window_bounds_witness :
    0 ≤ ((calcLine triangleFilter 2 3 0).start : ℤ) ∧
      ((calcLine triangleFilter 2 3 0).start : ℤ) +
        ((calcLine triangleFilter 2 3 0).coeffs.length : ℤ) - 1 ≤ (2 : ℤ) - 1 :=
  C3_window_bounds triangleFilter 3 (by norm_num) (calcLine triangleFilter 2 3 0)
    (List.mem_map_of_mem (calcLine triangleFilter 2 3) (by norm_num))

/-- C6: the coefficient tables computed with the dedup cache, one cache
instance shared across the width-axis and height-axis computations, coincide
window for window with the cache-free reference computation that normalizes
every window independently (source extents in usize range). -/
theorem C6_cache_never_changes_results (f : Filter) (w1 h1 w2 h2 : ℕ)
    (hbw : w1 < 2 ^ 64) (hbh : h1 < 2 ^ 64) :
    (resizerNew f w1 h1 w2 h2).coeffs_w = calc_coeffs w1 w2 f ∧
      (resizerNew f w1 h1 w2 h2).coeffs_h = calc_coeffs h1 h2 f :=
  resizerNew_coeffs f w1 h1 w2 h2 hbw hbh

/-- Witness for C6: a concrete mixed-extent Triangle engine. -/
theorem C6_cache_never_changes_results_witness :
    (resizerNew triangleFilter 2 2 3 4).coeffs_w = calc_coeffs 2 3 triangleFilter ∧
      (resizerNew triangleFilter 2 2 3 4).coeffs_h = calc_coeffs 2 4 triangleFilter :=
  C6_cache_never_changes_results triangleFilter 2 2 3 4 (by norm_num) (by norm_num)

/-- C8: whenever source width equals source height and destination width
equals destination height, the two axis tables of the engine are identical
(the height table is the width table, shared). -/
theorem C8_square_tables_identical (f : Filter) {w1 h1 w2 h2 : ℕ}
    (hs : w1 = h1) (hd : w2 = h2) :
    (resizerNew f w1 h1 w2 h2).coeffs_h = (resizerNew f w1 h1 w2 h2).coeffs_w := by
  unfold resizerNew
  simp only
  rw [if_pos ⟨hs.symm, hd.symm⟩]

/-- Witness for C8: a concrete square Triangle engine. -/
theorem C8_square_tables_identical_witness :
    (resizerNew triangleFilter 2 2 3 3).coeffs_h =
      (resizerNew triangleFilter 2 2 3 3).coeffs_w :=
  C8_square_tables_identical triangleFilter rfl rfl

/-- C4: resizing the 2x2 16-bit grayscale source with rows (65535, 65535) and
(65535, 65535) under row stride 4 (the out-of-row samples 1,2,3,4 are never
read) to a 3x4 destination with the Triangle filter produces twelve samples
all equal to 65535, computed by evaluating the embedded engine. -/
theorem C4_gray16_stride_triangle :
    resizeStrideModel (specFormat 1 65535) (resizerNew triangleFilter 2 2 3 4)
      [[65535], [65535], [1], [2], [65535], [65535], [3], [4]] 4 12 =
      some (List.replicate 12 [65535]) := by
  with_unfolding_all rfl

/-- C10: the plain resize entry point is definitionally the stride-aware one
with the stride fixed to the source width, for every engine, pixel model and
pair of buffers. -/
theorem C10_resize_is_stride_resize {Pix Acc Out : Type}
    (pm : PixelModel Pix Acc Out) (e : Resizer) (src : List Pix) (dstLen : ℕ) :
    resizeModel pm e src dstLen = resizeStrideModel pm e src e.w1 dstLen := rfl

/-- C2 (amended): for every pixel model, kernel, and engine whose source
extents are at least 1 (and in usize range), any buffers satisfying the three
preconditions make resize run to completion: every index is in bounds and the
whole destination is produced. -/
theorem C2_resize_completes {Pix Acc Out : Type} (pm : PixelModel Pix Acc Out)
    (f : Filter) (w1 h1 w2 h2 : ℕ) (src : List Pix) (stride dstLen : ℕ)
    (hw1 : 1 ≤ w1) (hh1 : 1 ≤ h1) (hbw : w1 < 2 ^ 64) (hbh : h1 < 2 ^ 64)
    (hstride : w1 ≤ stride) (hsrc : stride * h1 ≤ src.length)
    (hdst : dstLen = w2 * h2) :
    ∃ out, resizeInternal pm (resizerNew f w1 h1 w2 h2) src stride dstLen =
      some out ∧ out.length = w2 * h2 := by
  obtain ⟨hw, hh⟩ := resizerNew_coeffs f w1 h1 w2 h2 hbw hbh
  have hW1 : (resizerNew f w1 h1 w2 h2).w1 = w1 := rfl
  have hH1 : (resizerNew f w1 h1 w2 h2).h1 = h1 := rfl
  have hW2 : (resizerNew f w1 h1 w2 h2).w2 = w2 := rfl
  have hH2 : (resizerNew f w1 h1 w2 h2).h2 = h2 := rfl
  obtain ⟨out, hout, hlen⟩ := resizeInternal_some pm (resizerNew f w1 h1 w2 h2)
    src stride dstLen
    (by rw [hw, hW2, calc_coeffs_length])
    (by rw [hh, hH2, calc_coeffs_length])
    (by
      rw [hw, hW1]
      intro line hl
      exact (calc_coeffs_bounds f w2 hw1 line hl).2)
    (by
      rw [hh, hH1]
      exact calc_coeffs_bounds f h2 hh1)
    (by rw [hW1]; exact hstride)
    (by rw [hH1]; exact hsrc)
    (by rw [hW2, hH2]; exact hdst)
  exact ⟨out, hout, by rw [hlen, hW2, hH2]⟩

/-- Witness for C2: a 1x1 to 1x1 Triangle resize of a one-pixel gray buffer. -/
theorem C2_resize_completes_witness :
    ∃ out, resizeInternal (specFormat 1 255) (resizerNew triangleFilter 1 1 1 1)
      [[7]] 1 1 = some out ∧ out.length = 1 * 1 :=
  C2_resize_completes (specFormat 1 255) triangleFilter 1 1 1 1 [[7]] 1 1
    (by norm_num) (by norm_num) (by norm_num) (by norm_num) (by norm_num)
    (by norm_num) (by norm_num)

/-- C2 counterexample: an engine with source height 0 but destination height 1
satisfies all three preconditions with an empty source buffer and a one-pixel
destination, yet resize faults: the height window clamps its end to the cast
of -1, and the very first source access of pass 1 is out of bounds. -/
theorem C2_counterexample :
    (resizerNew triangleFilter 1 0 1 1).w1 ≤ 1 ∧
      1 * (resizerNew triangleFilter 1 0 1 1).h1 ≤ ([] : List (List ℕ)).length ∧
      (1 : ℕ) = (resizerNew triangleFilter 1 0 1 1).w2 *
        (resizerNew triangleFilter 1 0 1 1).h2 ∧
      resizeInternal (specFormat 1 65535) (resizerNew triangleFilter 1 0 1 1)
        ([] : List (List ℕ)) 1 1 = none := by
  obtain ⟨-, hh⟩ := resizerNew_coeffs triangleFilter 1 0 1 1 (by norm_num) (by norm_num)
  obtain ⟨c, hc⟩ := tri01_coeff0
  have hW1 : (resizerNew triangleFilter 1 0 1 1).w1 = 1 := rfl
  have hH1 : (resizerNew triangleFilter 1 0 1 1).h1 = 0 := rfl
  have hW2 : (resizerNew triangleFilter 1 0 1 1).w2 = 1 := rfl
  have hH2 : (resizerNew triangleFilter 1 0 1 1).h2 = 1 := rfl
  refine ⟨by rw [hW1], by rw [hH1]; simp, by rw [hW2, hH2], ?_⟩
  have hproj : (calcLine triangleFilter 0 1 0).coeffs = coeffsOf triangleFilter 0 1 0 := rfl
  have hrow : rowAccum (specFormat 1 65535) ([] : List (List ℕ)) 1 0
      (calcLine triangleFilter 0 1 0) = none := by
    unfold rowAccum
    rw [if_pos (by
      rw [show (calcLine triangleFilter 0 1 0).start = 0 from tri01_start]
      simp)]
    rw [show (calcLine triangleFilter 0 1 0).coeffs.length = 2 ^ 64 from tri01_len]
    rw [show (2 : ℕ) ^ 64 = 18446744073709551615 + 1 from by norm_num,
      List.range_succ_eq_map]
    apply accumOpt_cons_none
    beta_reduce
    rw [hproj, hc, List.getElem?_nil]
  have hrows : sampleRows (specFormat 1 65535) (resizerNew triangleFilter 1 0 1 1)
      ([] : List (List ℕ)) 1 = none := by
    unfold sampleRows
    rw [Option.map_eq_none']
    rw [hW1, range_one_eq]
    apply optMap_cons_none
    beta_reduce
    rw [if_pos (by rw [hH2, hh, calc_coeffs_length]), hH2, range_one_eq]
    apply optMap_cons_none
    beta_reduce
    rw [hh, tri01_calc, List.getElem?_cons_zero]
    exact hrow
  unfold resizeInternal
  rw [if_pos ⟨by rw [hW1], by rw [hH1]; simp, by rw [hW2, hH2]⟩, hrows]
  rfl

/-- C7 counterexample: with a custom all-zero kernel (a legal Custom filter)
and source extent 1, the single raw weight is 0, the normalizing division is
degenerate, and the produced window is (0, [0]), not (0, [1.0]): the claim
fails for arbitrary kernels. -/
theorem C7_counterexample :
    ¬ ∀ line ∈ calc_coeffs 1 1 zeroKernelFilter,
      line = CoeffsLine.mk 0 [1] := by
  intro hall
  have h10 : ((1 : ℕ) : ℤ) - 1 = 0 := by norm_num
  have hsZ : startZ zeroKernelFilter 1 1 0 = 0 := by
    unfold startZ
    rw [h10]
    exact clamp_zero_zero _
  have heZ : endZ zeroKernelFilter 1 1 0 = 0 := by
    unfold endZ
    rw [h10]
    exact clamp_zero_zero _
  have hst : startOf zeroKernelFilter 1 1 0 = 0 := by
    unfold startOf
    rw [hsZ]
    rfl
  have hen : endOf zeroKernelFilter 1 1 0 = 0 := by
    unfold endOf
    rw [heZ]
    rfl
  have hwin : windowIdxs zeroKernelFilter 1 1 0 = [0] := by
    unfold windowIdxs
    rw [hst, hen, if_pos (Nat.le_refl 0)]
    rfl
  have hcoe : coeffsOf zeroKernelFilter 1 1 0 = [0] := by
    unfold coeffsOf
    rw [hwin]
    simp only [List.map_cons, List.map_nil]
    have hz : rawWeight zeroKernelFilter 1 1 0 0 = 0 := rfl
    rw [hz, zero_div]
  have hline := hall (calcLine zeroKernelFilter 1 1 0)
    (by
      unfold calc_coeffs
      rw [range_one_eq, List.map_cons, List.map_nil]
      exact List.mem_singleton.mpr rfl)
  unfold calcLine at hline
  rw [hst, hcoe] at hline
  have : (0 : ℚ) = 1 := by
    have h01 : ([0] : List ℚ) = [1] := congrArg CoeffsLine.coeffs hline
    exact List.head_eq_of_cons_eq h01
  norm_num at this

/-- C7 (amended): for every destination extent S2 at least 1 and every kernel
that is nonzero at the single tap offset of each window, a source extent of 1
collapses every window to (start 0, weights [1.0]). -/
theorem C7_single_source_collapse (f : Filter) {s2 : ℕ}
    (hnz : ∀ x2 < s2, rawWeight f 1 s2 x2 0 ≠ 0) :
    ∀ line ∈ calc_coeffs 1 s2 f, line = CoeffsLine.mk 0 [1] := by
  intro line hl
  unfold calc_coeffs at hl
  rw [List.mem_map] at hl
  obtain ⟨x2, hx2, rfl⟩ := hl
  rw [List.mem_range] at hx2
  have h10 : ((1 : ℕ) : ℤ) - 1 = 0 := by norm_num
  have hsZ : startZ f 1 s2 x2 = 0 := by
    unfold startZ
    rw [h10]
    exact clamp_zero_zero _
  have heZ : endZ f 1 s2 x2 = 0 := by
    unfold endZ
    rw [h10]
    exact clamp_zero_zero _
  have hst : startOf f 1 s2 x2 = 0 := by
    unfold startOf
    rw [hsZ]
    rfl
  have hen : endOf f 1 s2 x2 = 0 := by
    unfold endOf
    rw [heZ]
    rfl
  have hwin : windowIdxs f 1 s2 x2 = [0] := by
    unfold windowIdxs
    rw [hst, hen, if_pos (Nat.le_refl 0)]
    rfl
  have hsum : weightSum f 1 s2 x2 = rawWeight f 1 s2 x2 0 := by
    unfold weightSum
    rw [hwin]
    simp
  have hcoe : coeffsOf f 1 s2 x2 = [1] := by
    unfold coeffsOf
    rw [hwin]
    simp only [List.map_cons, List.map_nil]
    rw [hsum, div_self (hnz x2 hx2)]
  unfold calcLine
  rw [hst, hcoe]

/-- Witness for C7: the first Triangle window for a 1-pixel source axis
upscaled to 2 is exactly (0, [1.0]). -/
theorem C7_single_source_collapse_witness :
    calcLine triangleFilter 1 2 0 = CoeffsLine.mk 0 [1] :=
  C7_single_source_collapse triangleFilter
    (by
      intro x2 hx2
      interval_cases x2 <;>
        (unfold rawWeight sampleCenter filterScale ratioOf triangleFilter triangle_kernel
         norm_num [abs_lt]))
    (calcLine triangleFilter 1 2 0)
    (List.mem_map_of_mem (calcLine triangleFilter 1 2) (by norm_num))

/-- C9: a zero destination extent along either axis yields an empty
coefficient table for that axis, and resize with the correspondingly empty
destination buffer (and any valid source buffer over nonzero source extents)
completes without fault, writing nothing. -/
theorem C9_zero_dest_extent {Pix Acc Out : Type} (pm : PixelModel Pix Acc Out)
    (f : Filter) (w1 h1 w2 h2 : ℕ) (src : List Pix) (stride : ℕ)
    (hw1 : 1 ≤ w1) (hh1 : 1 ≤ h1) (hbw : w1 < 2 ^ 64) (hbh : h1 < 2 ^ 64)
    (hstride : w1 ≤ stride) (hsrc : stride * h1 ≤ src.length) :
    (resizerNew f w1 h1 w2 0).coeffs_h = [] ∧
      resizeInternal pm (resizerNew f w1 h1 w2 0) src stride 0 = some [] ∧
      (resizerNew f w1 h1 0 h2).coeffs_w = [] ∧
      resizeInternal pm (resizerNew f w1 h1 0 h2) src stride 0 = some [] := by
  obtain ⟨hwA, hhA⟩ := resizerNew_coeffs f w1 h1 w2 0 hbw hbh
  obtain ⟨hwB, hhB⟩ := resizerNew_coeffs f w1 h1 0 h2 hbw hbh
  have hA : (resizerNew f w1 h1 w2 0).coeffs_h = [] := by
    rw [hhA]
    rfl
  have hB : (resizerNew f w1 h1 0 h2).coeffs_w = [] := by
    rw [hwB]
    rfl
  obtain ⟨outA, houtA, hlenA⟩ := resizeInternal_some pm (resizerNew f w1 h1 w2 0)
    src stride 0
    (by rw [hwA]; exact calc_coeffs_length w1 w2 f)
    (by rw [hhA]; exact calc_coeffs_length h1 0 f)
    (by
      rw [hwA]
      intro line hl
      exact (calc_coeffs_bounds f w2 hw1 line hl).2)
    (by
      rw [hhA]
      exact calc_coeffs_bounds f 0 hh1)
    hstride hsrc
    (by rw [show (resizerNew f w1 h1 w2 0).h2 = 0 from rfl, Nat.mul_zero])
  obtain ⟨outB, houtB, hlenB⟩ := resizeInternal_some pm (resizerNew f w1 h1 0 h2)
    src stride 0
    (by rw [hwB]; exact calc_coeffs_length w1 0 f)
    (by rw [hhB]; exact calc_coeffs_length h1 h2 f)
    (by
      rw [hwB]
      intro line hl
      exact (calc_coeffs_bounds f 0 hw1 line hl).2)
    (by
      rw [hhB]
      exact calc_coeffs_bounds f h2 hh1)
    hstride hsrc
    (by rw [show (resizerNew f w1 h1 0 h2).w2 = 0 from rfl, Nat.zero_mul])
  have hnilA : outA = [] := by
    rw [← List.length_eq_zero, hlenA,
      show (resizerNew f w1 h1 w2 0).h2 = 0 from rfl, Nat.mul_zero]
  have hnilB : outB = [] := by
    rw [← List.length_eq_zero, hlenB,
      show (resizerNew f w1 h1 0 h2).w2 = 0 from rfl, Nat.zero_mul]
  exact ⟨hA, hnilA ▸ houtA, hB, hnilB ▸ houtB⟩

/-! Identity behaviour of the spec-modelled pixel channel model. -/

theorem zipWith_one_mul (q : List ℚ) :
    List.zipWith (fun a c => a + 1 * c) (List.replicate q.length (0 : ℚ)) q = q := by
  induction q with
  | nil => rfl
  | cons c t ih =>
    simp only [List.length_cons, List.replicate_succ, List.zipWith_cons_cons]
    rw [ih]
    norm_num

theorem castPix_length (p : List ℕ) : (castPix p).length = p.length := by
  unfold castPix
  exact List.length_map _ _

theorem specFormat_add_new (n m : ℕ) (p : List ℕ) (hp : p.length = n) :
    (specFormat n m).add (specFormat n m).new p 1 = castPix p := by
  subst hp
  show List.zipWith (fun a c => a + 1 * c) (List.replicate p.length (0 : ℚ))
    (castPix p) = castPix p
  rw [show p.length = (castPix p).length from (castPix_length p).symm]
  exact zipWith_one_mul (castPix p)

theorem specFormat_add_acc_new (n m : ℕ) (a : List ℚ) (ha : a.length = n) :
    (specFormat n m).add_acc (specFormat n m).new a 1 = a := by
  subst ha
  show List.zipWith (fun x c => x + 1 * c) (List.replicate a.length (0 : ℚ)) a = a
  exact zipWith_one_mul a

theorem specFormat_into_castPix (n m : ℕ) (p : List ℕ) (hv : ∀ v ∈ p, v ≤ m) :
    (specFormat n m).into_pixel (castPix p) = p := by
  show (castPix p).map (fun q => (clamp (round q) 0 (m : ℤ)).toNat) = p
  unfold castPix
  rw [List.map_map]
  have hid : ∀ v ∈ p,
      ((fun q => (clamp (round q) 0 (m : ℤ)).toNat) ∘ (fun c : ℕ => (c : ℚ))) v = v := by
    intro v hv'
    have hvm := hv v hv'
    simp only [Function.comp_apply, round_natCast]
    unfold clamp
    split_ifs with h1 h2 <;> omega
  rw [List.map_congr_left hid, List.map_id']

/-! List access helpers. -/

theorem getElem?_eq_getD {α : Type} (l : List α) (i : ℕ) (d : α) (h : i < l.length) :
    l[i]? = some (l.getD i d) := by
  rw [List.getElem?_eq_getElem h]
  exact congrArg some (List.getD_eq_getElem l d h).symm

theorem getD_mem {α : Type} (l : List α) (i : ℕ) (d : α) (h : i < l.length) :
    l.getD i d ∈ l := by
  rw [List.getD_eq_getElem l d h]
  exact List.getElem_mem h

theorem idTable_length (s : ℕ) : (idTable s).length = s := by
  unfold idTable
  rw [List.length_map, List.length_range]

theorem idTable_getElem? {s i : ℕ} (h : i < s) :
    (idTable s)[i]? = some (CoeffsLine.mk i [1]) := by
  unfold idTable
  rw [List.getElem?_map, List.getElem?_range h]
  rfl

/-! The Point filter at identical source and destination extents produces the
identity coefficient table. -/

theorem calc_coeffs_point_identity (s : ℕ) (hb : s < 2 ^ 64) :
    calc_coeffs s s pointFilter = idTable s := by
  unfold calc_coeffs idTable
  apply List.map_congr_left
  intro x2 hx2
  rw [List.mem_range] at hx2
  have hs1 : 1 ≤ s := by omega
  have hratio : ratioOf s s = 1 := by
    unfold ratioOf
    exact div_self (Nat.cast_ne_zero.mpr (by omega))
  have hscale : filterScale s s = 1 := by
    unfold filterScale
    rw [hratio]
    exact max_self 1
  have hrad : filterRadius pointFilter s s = 0 := by
    unfold filterRadius
    show ⌈(0 : ℚ) * filterScale s s⌉ = 0
    rw [zero_mul, Int.ceil_zero]
  have hcen : sampleCenter s s x2 = (x2 : ℚ) := by
    unfold sampleCenter
    rw [hratio]
    ring
  have hceil : ⌈((x2 : ℚ)) - ((0 : ℤ) : ℚ)⌉ = (x2 : ℤ) := by
    rw [Int.cast_zero, sub_zero]
    exact_mod_cast Int.ceil_natCast x2
  have hfloor : ⌊((x2 : ℚ)) + ((0 : ℤ) : ℚ)⌋ = (x2 : ℤ) := by
    rw [Int.cast_zero, add_zero]
    exact_mod_cast Int.floor_natCast x2
  have hsZ : startZ pointFilter s s x2 = (x2 : ℤ) := by
    unfold startZ
    rw [hcen, hrad, hceil]
    unfold clamp
    split_ifs <;> omega
  have heZ : endZ pointFilter s s x2 = (x2 : ℤ) := by
    unfold endZ
    rw [hcen, hrad, hfloor]
    unfold clamp
    split_ifs <;> omega
  have hcast := usizeCast_coe (show (0 : ℤ) ≤ (x2 : ℤ) from Int.natCast_nonneg x2)
    (show ((x2 : ℤ)) < 2 ^ 64 by exact_mod_cast by omega)
  have hst : startOf pointFilter s s x2 = x2 := by
    unfold startOf
    rw [hsZ]
    omega
  have hen : endOf pointFilter s s x2 = x2 := by
    unfold endOf
    rw [heZ]
    omega
  have hwin : windowIdxs pointFilter s s x2 = [x2] := by
    unfold windowIdxs
    rw [hst, hen, if_pos (Nat.le_refl x2), show x2 + 1 - x2 = 1 by omega]
    rfl
  have hraw : rawWeight pointFilter s s x2 x2 = 1 := rfl
  have hsum : weightSum pointFilter s s x2 = 1 := by
    unfold weightSum
    rw [hwin, List.map_cons, List.map_nil, hraw, List.sum_cons, List.sum_nil]
    norm_num
  have hcoe : coeffsOf pointFilter s s x2 = [1] := by
    unfold coeffsOf
    rw [hwin, List.map_cons, List.map_nil, hraw, hsum]
    norm_num
  unfold calcLine
  rw [hst, hcoe]

/-- Resizing through identity coefficient tables reproduces the source buffer
exactly, for every spec-modelled pixel format. -/
theorem resize_identity (n m w h : ℕ) (e : Resizer) (src : List (List ℕ))
    (he1 : e.w1 = w) (he2 : e.h1 = h) (he3 : e.w2 = w) (he4 : e.h2 = h)
    (he5 : e.coeffs_w = idTable w) (he6 : e.coeffs_h = idTable h)
    (hlen : src.length = w * h)
    (hpix : ∀ p ∈ src, p.length = n ∧ ∀ v ∈ p, v ≤ m) :
    resizeInternal (specFormat n m) e src w (w * h) = some src := by
  have hidx : ∀ y2 < h, ∀ x1 < w, y2 * w + x1 < src.length := by
    intro y2 hy2 x1 hx1
    rw [hlen, Nat.mul_comm w h]
    exact mul_add_lt_mul hy2 hx1
  have hrow : ∀ x1 < w, ∀ y2 < h,
      rowAccum (specFormat n m) src w x1 (CoeffsLine.mk y2 [1]) =
        some (castPix (src.getD (y2 * w + x1) [])) := by
    intro x1 hx1 y2 hy2
    obtain ⟨hplen, -⟩ := hpix (src.getD (y2 * w + x1) [])
      (getD_mem src _ [] (hidx y2 hy2 x1 hx1))
    have hget : src[y2 * w + x1 + 0 * w]? = some (src.getD (y2 * w + x1) []) := by
      rw [show y2 * w + x1 + 0 * w = y2 * w + x1 by ring]
      exact getElem?_eq_getD src _ [] (hidx y2 hy2 x1 hx1)
    unfold rowAccum
    rw [if_pos (show (CoeffsLine.mk y2 [1]).start * w + x1 ≤ src.length from
      le_of_lt (hidx y2 hy2 x1 hx1))]
    rw [show List.range (CoeffsLine.mk y2 [1]).coeffs.length = [0] from rfl]
    simp only [accumOpt, List.getElem?_cons_zero, hget]
    rw [specFormat_add_new n m _ hplen]
  have hrowlen : ∀ r ∈ (List.range w).map (fun x1 => (List.range h).map
      (fun y2 => castPix (src.getD (y2 * w + x1) []))), r.length = h := by
    intro r hr
    rw [List.mem_map] at hr
    obtain ⟨x1, -, rfl⟩ := hr
    rw [List.length_map, List.length_range]
  have hrows : sampleRows (specFormat n m) e src w =
      some (((List.range w).map (fun x1 => (List.range h).map
        (fun y2 => castPix (src.getD (y2 * w + x1) [])))).flatten) := by
    have hinner : ∀ x1 ∈ List.range w,
        (if h ≤ (idTable h).length then
          optMap (fun y2 =>
            match (idTable h)[y2]? with
            | some line => rowAccum (specFormat n m) src w x1 line
            | none => none) (List.range h)
        else none) =
          some ((List.range h).map (fun y2 => castPix (src.getD (y2 * w + x1) []))) := by
      intro x1 hx1
      rw [List.mem_range] at hx1
      rw [if_pos (by rw [idTable_length])]
      apply optMap_congr
      intro y2 hy2
      rw [List.mem_range] at hy2
      rw [idTable_getElem? hy2]
      exact hrow x1 hx1 y2 hy2
    unfold sampleRows
    rw [he1, he4, he6]
    rw [optMap_congr _ _ (List.range w) hinner]
    rfl
  set TMP := ((List.range w).map (fun x1 => (List.range h).map
    (fun y2 => castPix (src.getD (y2 * w + x1) [])))).flatten with hTMP
  have htmpget : ∀ x2 < w, ∀ y2 < h,
      TMP[x2 * h + y2]? = some (castPix (src.getD (y2 * w + x2) [])) := by
    intro x2 hx2 y2 hy2
    rw [hTMP, flatten_getElem_uniform h _ x2 y2 hrowlen hy2]
    rw [List.getElem?_map, List.getElem?_range hx2]
    simp only [Option.map_some']
    rw [List.getElem?_map, List.getElem?_range hy2]
    simp only [Option.map_some']
  have hcolacc : ∀ y2 < h, ∀ x2 < w,
      colAccum (specFormat n m) TMP h y2 (CoeffsLine.mk x2 [1]) =
        some (castPix (src.getD (y2 * w + x2) [])) := by
    intro y2 hy2 x2 hx2
    obtain ⟨hplen, -⟩ := hpix (src.getD (y2 * w + x2) [])
      (getD_mem src _ [] (hidx y2 hy2 x2 hx2))
    have hget : TMP[((CoeffsLine.mk x2 [1]).start + 0) * h + y2]? =
        some (castPix (src.getD (y2 * w + x2) [])) := by
      rw [show (CoeffsLine.mk x2 [1]).start + 0 = x2 from rfl]
      exact htmpget x2 hx2 y2 hy2
    unfold colAccum
    rw [show List.range (CoeffsLine.mk x2 [1]).coeffs.length = [0] from rfl]
    simp only [accumOpt, List.getElem?_cons_zero, hget]
    rw [specFormat_add_acc_new n m _ (by rw [castPix_length, hplen])]
  have hrowlen2 : ∀ r ∈ (List.range h).map (fun y2 => (List.range w).map
      (fun x2 => src.getD (y2 * w + x2) [])), r.length = w := by
    intro r hr
    rw [List.mem_map] at hr
    obtain ⟨y2, -, rfl⟩ := hr
    rw [List.length_map, List.length_range]
  have hcols : sampleCols (specFormat n m) e TMP (w * h) =
      some (((List.range h).map (fun y2 => (List.range w).map
        (fun x2 => src.getD (y2 * w + x2) []))).flatten) := by
    have hinner2 : ∀ y2 ∈ List.range h,
        (if w ≤ (idTable w).length then
          optMap (fun x2 =>
            match (idTable w)[x2]? with
            | some line =>
              (colAccum (specFormat n m) TMP h y2 line).map (specFormat n m).into_pixel
            | none => none) (List.range w)
        else none) =
          some ((List.range w).map (fun x2 => src.getD (y2 * w + x2) [])) := by
      intro y2 hy2
      rw [List.mem_range] at hy2
      rw [if_pos (by rw [idTable_length])]
      apply optMap_congr
      intro x2 hx2
      rw [List.mem_range] at hx2
      obtain ⟨-, hpval⟩ := hpix (src.getD (y2 * w + x2) [])
        (getD_mem src _ [] (hidx y2 hy2 x2 hx2))
      rw [idTable_getElem? hx2]
      show (colAccum (specFormat n m) TMP h y2 (CoeffsLine.mk x2 [1])).map
        (specFormat n m).into_pixel = some (src.getD (y2 * w + x2) [])
      rw [hcolacc y2 hy2 x2 hx2]
      simp only [Option.map_some']
      rw [specFormat_into_castPix n m _ hpval]
    unfold sampleCols
    rw [he3, he4, he5]
    rw [if_pos (le_of_eq (Nat.mul_comm h w))]
    rw [optMap_congr _ _ (List.range h) hinner2]
    rfl
  have hout : (((List.range h).map (fun y2 => (List.range w).map
      (fun x2 => src.getD (y2 * w + x2) []))).flatten) = src := by
    apply List.ext_getElem?
    intro k
    rcases Nat.lt_or_ge k (h * w) with hk | hk
    · have hw0 : 0 < w := by
        rcases Nat.eq_zero_or_pos w with h0 | h0
        · rw [h0, Nat.mul_zero] at hk
          omega
        · exact h0
      have hi : k / w < h := Nat.div_lt_of_lt_mul (by rw [Nat.mul_comm] at hk; exact hk)
      have hj : k % w < w := Nat.mod_lt _ hw0
      have hkeq : k / w * w + k % w = k := by
        calc k / w * w + k % w = w * (k / w) + k % w := by ring
        _ = k := Nat.div_add_mod k w
      have hksrc : k < src.length := by
        have hcomm : w * h = h * w := Nat.mul_comm w h
        omega
      conv_lhs => rw [← hkeq]
      rw [flatten_getElem_uniform w _ (k / w) (k % w) hrowlen2 hj]
      rw [List.getElem?_map, List.getElem?_range hi]
      simp only [Option.map_some']
      rw [List.getElem?_map, List.getElem?_range hj]
      simp only [Option.map_some']
      rw [hkeq]
      exact (getElem?_eq_getD src k [] hksrc).symm
    · have hlen2 : (((List.range h).map (fun y2 => (List.range w).map
          (fun x2 => src.getD (y2 * w + x2) []))).flatten).length = h * w := by
        rw [flatten_length_uniform w _ hrowlen2, List.length_map, List.length_range]
      rw [List.getElem?_eq_none (by omega), List.getElem?_eq_none (by
        have hcomm : w * h = h * w := Nat.mul_comm w h
        omega)]
  unfold resizeInternal
  rw [if_pos ⟨by rw [he1], by rw [he2, hlen], by rw [he3, he4]⟩, hrows]
  show sampleCols (specFormat n m) e TMP (w * h) = some src
  rw [hcols, hout]

/-- C5: with the Point filter and identical source and destination extents,
every weight window of both axes is a single tap of weight exactly 1.0 whose
start is its destination index, and resize reproduces the source buffer
bit-identically, for every spec-modelled pixel format (extents in usize
range, components within the format range). -/
theorem C5_point_identity_resize (n m w h : ℕ) (src : List (List ℕ))
    (hbw : w < 2 ^ 64) (hbh : h < 2 ^ 64)
    (hlen : src.length = w * h)
    (hpix : ∀ p ∈ src, p.length = n ∧ ∀ v ∈ p, v ≤ m) :
    (resizerNew pointFilter w h w h).coeffs_w = idTable w ∧
      (resizerNew pointFilter w h w h).coeffs_h = idTable h ∧
      resizeModel (specFormat n m) (resizerNew pointFilter w h w h) src (w * h) =
        some src := by
  obtain ⟨hw, hh⟩ := resizerNew_coeffs pointFilter w h w h hbw hbh
  have hw' : (resizerNew pointFilter w h w h).coeffs_w = idTable w := by
    rw [hw]
    exact calc_coeffs_point_identity w hbw
  have hh' : (resizerNew pointFilter w h w h).coeffs_h = idTable h := by
    rw [hh]
    exact calc_coeffs_point_identity h hbh
  exact ⟨hw', hh',
    resize_identity n m w h (resizerNew pointFilter w h w h) src rfl rfl rfl rfl
      hw' hh' hlen hpix⟩

/-- Witness for C5: a 2x2 identity Point resize of a concrete 8-bit gray
buffer. -/
theorem C5_point_identity_resize_witness :
    (resizerNew pointFilter 2 2 2 2).coeffs_w = idTable 2 ∧
      (resizerNew pointFilter 2 2 2 2).coeffs_h = idTable 2 ∧
      resizeModel (specFormat 1 255) (resizerNew pointFilter 2 2 2 2)
        [[10], [20], [30], [255]] (2 * 2) = some [[10], [20], [30], [255]] :=
  C5_point_identity_resize 1 255 2 2 [[10], [20], [30], [255]]
    (by norm_num) (by norm_num) (by norm_num) (by decide)

/-- Witness for C9: a 2x2 Triangle source with a zero-extent destination axis. -/
theorem C9_zero_dest_extent_witness :
    (resizerNew triangleFilter 2 2 3 0).coeffs_h = [] ∧
      resizeInternal (specFormat 1 255) (resizerNew triangleFilter 2 2 3 0)
        [[1], [2], [3], [4]] 2 0 = some [] ∧
      (resizerNew triangleFilter 2 2 0 4).coeffs_w = [] ∧
      resizeInternal (specFormat 1 255) (resizerNew triangleFilter 2 2 0 4)
        [[1], [2], [3], [4]] 2 0 = some [] :=
  C9_zero_dest_extent (specFormat 1 255) triangleFilter 2 2 3 4
    [[1], [2], [3], [4]] 2 (by norm_num) (by norm_num) (by norm_num) (by norm_num)
    (by norm_num) (by norm_num)

end Resize
